import Mathlib

/-!
Verification of the interval-overlap aggregate (`max_intersections.cpp`) and the
`days_in_month` TIME overload (`days_in_month.cpp`).

The aggregate state `MaxIntersectionsState` holds `std::vector<std::pair<int64_t,int64_t>>
intervals`; we embed it as `List (Int × Int)`, the list being the vector contents in order.
The host instantiates the aggregate at BIGINT (int64) arguments, so `left`, `right` and the
stored endpoints are 64-bit signed values; we use unbounded `Int` and make the one place the
code does arithmetic on them (`interval.second + 1` when building sweep events) explicit via
two's-complement wrapping `wrap64`.
-/

namespace MaxIntersections

/-- Two's-complement wrap of an integer into the signed 64-bit range, modelling what the
generated code computes for `int64_t` addition (`interval.second + 1`). -/
def wrap64 (x : Int) : Int :=
  (x + 2 ^ 63) % 2 ^ 64 - 2 ^ 63

/-- `MaxIntersectionsFunction::Operation` (lines 49-56): append `(left, right)` iff
`left <= right`; invalid intervals are silently ignored. -/
def Operation (state : List (Int × Int)) (left right : Int) : List (Int × Int) :=
  if left ≤ right then state ++ [(left, right)] else state

/-- `MaxIntersectionsFunction::ConstantOperation` (lines 58-69): append the interval
`count` times iff `left <= right`. -/
def ConstantOperation (state : List (Int × Int)) (left right : Int) (count : Nat) :
    List (Int × Int) :=
  if left ≤ right then state ++ List.replicate count (left, right) else state

/-- `MaxIntersectionsFunction::Combine` (lines 71-85): insert all of `source`'s intervals at
the end of `target`; early return when `source` is empty. -/
def Combine (source target : List (Int × Int)) : List (Int × Int) :=
  if source.isEmpty then target else target ++ source

/-- `Combine` takes `source` by const reference and only reads it, so the post-state of the
call is the pair (source unchanged, target with source's intervals appended). -/
def CombineEffect (source target : List (Int × Int)) :
    List (Int × Int) × List (Int × Int) :=
  if source.isEmpty then (source, target) else (source, target ++ source)

/-- Event list built by the loop at lines 111-114: for each interval, a `(start, +1)` event
then an `(end + 1, -1)` event, in state order. The `+ 1` is `int64_t` arithmetic. -/
def eventsOf (intervals : List (Int × Int)) : List (Int × Int) :=
  intervals.flatMap fun iv => [(iv.1, 1), (wrap64 (iv.2 + 1), -1)]

/-- The strict comparator passed to `std::sort` (lines 118-124): by position, and at equal
positions `-1` (end) events before `+1` (start) events. `eventRel` is its reflexive closure;
because comparator-equal events are equal as pairs, the sorted sequence is unique, so any
`std::sort` execution produces exactly the `eventRel`-sorted list. -/
def eventRel (a b : Int × Int) : Prop :=
  a.1 < b.1 ∨ (a.1 = b.1 ∧ a.2 ≤ b.2)

instance eventRelDec : DecidableRel eventRel := fun a b =>
  inferInstanceAs (Decidable (a.1 < b.1 ∨ (a.1 = b.1 ∧ a.2 ≤ b.2)))

instance : IsTotal (Int × Int) eventRel := by
  constructor
  intro a b
  rcases a with ⟨a1, a2⟩
  rcases b with ⟨b1, b2⟩
  simp only [eventRel]
  omega

instance : IsTrans (Int × Int) eventRel := by
  constructor
  intro a b c hab hbc
  rcases a with ⟨a1, a2⟩
  rcases b with ⟨b1, b2⟩
  rcases c with ⟨c1, c2⟩
  simp only [eventRel] at *
  omega

instance : IsAntisymm (Int × Int) eventRel := by
  constructor
  intro a b hab hba
  rcases a with ⟨a1, a2⟩
  rcases b with ⟨b1, b2⟩
  simp only [eventRel, Prod.mk.injEq] at *
  omega

/-- The sweep loop at lines 127-136: add each event's delta to `current_count` and raise
`max_count` whenever `current_count` exceeds it. -/
def sweepLoop : List (Int × Int) → Int → Int → Int
  | [], _, max_count => max_count
  | e :: rest, current_count, max_count =>
    let c := current_count + e.2
    sweepLoop rest c (if c > max_count then c else max_count)

/-- `MaxIntersectionsFunction::Finalize` (lines 88-139): 0 for an empty state, 1 for a
single interval, otherwise sort the events and sweep. -/
def Finalize (state : List (Int × Int)) : Int :=
  if state.isEmpty then 0
  else if state.length = 1 then 1
  else sweepLoop (List.insertionSort eventRel (eventsOf state)) 0 0

/-- Number of intervals of `l` (with multiplicity) containing the point `p`, the quantity
the spec says `Finalize` maximises. -/
def coverCount (l : List (Int × Int)) (p : Int) : Int :=
  ((l.filter fun iv => decide (iv.1 ≤ p ∧ p ≤ iv.2)).length : Int)

/-- Sum of the deltas of a list of events. -/
def sumDelta (l : List (Int × Int)) : Int :=
  (l.map Prod.snd).sum

/-- Accumulating a list of raw `(left, right)` pairs into a fresh state, one `Operation`
call per pair in order. -/
def accumulateAll (pairs : List (Int × Int)) : List (Int × Int) :=
  pairs.foldl (fun st iv => Operation st iv.1 iv.2) []

/-- A tree of merge calls: each leaf is one group of raw input pairs accumulated into its
own fresh state, each node combines the states of its subtrees with `Combine`. -/
inductive MergeTree where
  | leaf : List (Int × Int) → MergeTree
  | node : MergeTree → MergeTree → MergeTree

/-- The state produced by accumulating every leaf group and merging up the tree. -/
def mergeAll : MergeTree → List (Int × Int)
  | .leaf g => accumulateAll g
  | .node a b => Combine (mergeAll a) (mergeAll b)

/-- All raw input pairs of the tree, in leaf order. -/
def groupsOf : MergeTree → List (Int × Int)
  | .leaf g => g
  | .node a b => groupsOf a ++ groupsOf b

/-- States reachable from a fresh state by any sequence of accumulate, constant-accumulate
and merge calls. -/
inductive Reachable : List (Int × Int) → Prop where
  | init : Reachable []
  | accum : ∀ s left right, Reachable s → Reachable (Operation s left right)
  | caccum : ∀ s left right n, Reachable s → Reachable (ConstantOperation s left right n)
  | merge : ∀ s t, Reachable s → Reachable t → Reachable (Combine s t)

end MaxIntersections

namespace DaysInMonth

/-- `DaysInMonthTimeFunction` (days_in_month.cpp lines 57-59): the TIME overload throws
`InvalidInputException` unconditionally, before looking at any argument row. The input is
the chunk of TIME values (micros since midnight); the result would be the chunk of outputs. -/
def DaysInMonthTimeFunction (args : List Int) : Except String (List Int) :=
  Except.error "days_in_month cannot be used with TIME type - TIME does not contain date information"

end DaysInMonth

namespace MaxIntersections

theorem sumDelta_nil : sumDelta [] = 0 := rfl

theorem sumDelta_cons (e : Int × Int) (l : List (Int × Int)) :
    sumDelta (e :: l) = e.2 + sumDelta l := by
  simp [sumDelta]

theorem sumDelta_append (l₁ l₂ : List (Int × Int)) :
    sumDelta (l₁ ++ l₂) = sumDelta l₁ + sumDelta l₂ := by
  simp [sumDelta]

theorem sumDelta_concat (l : List (Int × Int)) (e : Int × Int) :
    sumDelta (l ++ [e]) = sumDelta l + e.2 := by
  simp [sumDelta]

theorem sumDelta_perm {l₁ l₂ : List (Int × Int)} (h : l₁.Perm l₂) :
    sumDelta l₁ = sumDelta l₂ :=
  (h.map Prod.snd).sum_eq

/-- The sweep never reports less than the incoming `max_count`. -/
theorem sweepLoop_ge (l : List (Int × Int)) :
    ∀ current mx : Int, mx ≤ sweepLoop l current mx := by
  induction l with
  | nil => intro c m; simp [sweepLoop]
  | cons e rest ih =>
    intro c m
    simp only [sweepLoop]
    refine le_trans ?_ (ih (c + e.2) _)
    split <;> omega

/-- Every running value of `current_count` (taken right after adding a delta, i.e. at the
end of a nonempty event list split) bounds the sweep result from below. -/
theorem sweepLoop_ge_split (a : List (Int × Int)) :
    ∀ (e : Int × Int) (b : List (Int × Int)) (current mx : Int),
      current + sumDelta (a ++ [e]) ≤ sweepLoop (a ++ e :: b) current mx := by
  induction a with
  | nil =>
    intro e b c m
    simp only [List.nil_append, sweepLoop, sumDelta_cons, sumDelta_nil]
    refine le_trans ?_ (sweepLoop_ge b (c + e.2) _)
    split <;> omega
  | cons x a' ih =>
    intro e b c m
    simp only [List.cons_append, sweepLoop, sumDelta_cons, List.append_eq]
    have h := ih e b (c + x.2) (if c + x.2 > m then c + x.2 else m)
    linarith

/-- The sweep result is either the incoming `max_count` or one of the running values of
`current_count`, observed after the events of some nonempty split. -/
theorem sweepLoop_attained (l : List (Int × Int)) :
    ∀ current mx : Int,
      sweepLoop l current mx = mx ∨
        ∃ a e b, l = a ++ e :: b ∧
          sweepLoop l current mx = current + sumDelta (a ++ [e]) := by
  induction l with
  | nil => intro c m; left; rfl
  | cons x rest ih =>
    intro c m
    simp only [sweepLoop]
    rcases ih (c + x.2) (if c + x.2 > m then c + x.2 else m) with h | ⟨a, e, b, hsplit, hv⟩
    · by_cases hc : c + x.2 > m
      · right
        refine ⟨[], x, rest, rfl, ?_⟩
        rw [h, if_pos hc]
        simp [sumDelta_cons, sumDelta_nil]
      · left
        rw [h, if_neg hc]
    · right
      refine ⟨x :: a, e, b, by rw [hsplit, List.cons_append], ?_⟩
      rw [hv, List.cons_append, sumDelta_cons]
      ring

/-- Within the signed 64-bit range, wrapping is the identity. -/
theorem wrap64_eq_self (x : Int) (h1 : -(2 ^ 63) ≤ x) (h2 : x < 2 ^ 63) : wrap64 x = x := by
  unfold wrap64
  omega

/-- Every generated event carries delta `+1` or `-1`. -/
theorem eventsOf_delta (l : List (Int × Int)) :
    ∀ e ∈ eventsOf l, e.2 = 1 ∨ e.2 = -1 := by
  intro e he
  simp only [eventsOf, List.mem_flatMap, List.mem_cons, List.not_mem_nil, or_false,
    List.mem_singleton] at he
  rcases he with ⟨iv, _, h | h⟩ <;> subst h <;> simp

theorem coverCount_cons (iv : Int × Int) (l : List (Int × Int)) (p : Int) :
    coverCount (iv :: l) p =
      (if iv.1 ≤ p ∧ p ≤ iv.2 then 1 else 0) + coverCount l p := by
  by_cases h : iv.1 ≤ p ∧ p ≤ iv.2 <;>
    simp [coverCount, List.filter_cons, h] <;> omega

theorem coverCount_le_length (l : List (Int × Int)) (p : Int) :
    coverCount l p ≤ (l.length : Int) := by
  simp only [coverCount]
  exact_mod_cast List.length_filter_le _ l

/-- A valid interval of the state makes its own start point covered at least once. -/
theorem coverCount_pos (l : List (Int × Int)) (iv : Int × Int) (hmem : iv ∈ l)
    (h : iv.1 ≤ iv.2) : 1 ≤ coverCount l iv.1 := by
  have hf : iv ∈ l.filter fun x => decide (x.1 ≤ iv.1 ∧ iv.1 ≤ x.2) :=
    List.mem_filter.mpr ⟨hmem, by simp [h]⟩
  have hlen : 0 < (l.filter fun x => decide (x.1 ≤ iv.1 ∧ iv.1 ≤ x.2)).length :=
    List.length_pos.mpr (List.ne_nil_of_mem hf)
  simp only [coverCount]
  exact_mod_cast hlen

/-- The number of intervals covering `p` equals the sum of the deltas of the events whose
position is at most `p`, provided all intervals are valid int64 intervals whose end-event
position does not wrap. -/
theorem coverCount_eq_eventSum (l : List (Int × Int))
    (hval : ∀ iv ∈ l, -(2 ^ 63) ≤ iv.1 ∧ iv.1 ≤ iv.2 ∧ iv.2 < 2 ^ 63 - 1) (p : Int) :
    coverCount l p = sumDelta ((eventsOf l).filter fun e => decide (e.1 ≤ p)) := by
  induction l with
  | nil => rfl
  | cons iv rest ih =>
    have hiv := hval iv (List.mem_cons_self iv rest)
    have hrest : ∀ x ∈ rest, -(2 ^ 63) ≤ x.1 ∧ x.1 ≤ x.2 ∧ x.2 < 2 ^ 63 - 1 :=
      fun x hx => hval x (List.mem_cons_of_mem _ hx)
    have hev : eventsOf (iv :: rest) =
        (iv.1, 1) :: (wrap64 (iv.2 + 1), -1) :: eventsOf rest := rfl
    rw [coverCount_cons, ih hrest, hev,
      wrap64_eq_self (iv.2 + 1) (by omega) (by omega)]
    obtain ⟨hlo, hle, hhi⟩ := hiv
    by_cases h1 : iv.1 ≤ p <;> by_cases h2 : iv.2 + 1 ≤ p
    · have hpc : ¬ (iv.1 ≤ p ∧ p ≤ iv.2) := by omega
      simp [List.filter_cons, h1, h2, hpc, sumDelta_cons]
      omega
    · have hpc : iv.1 ≤ p ∧ p ≤ iv.2 := by omega
      simp [List.filter_cons, h1, h2, hpc, sumDelta_cons]
    · exact absurd (by omega : iv.1 ≤ p) h1
    · have hpc : ¬ (iv.1 ≤ p ∧ p ≤ iv.2) := by omega
      simp [List.filter_cons, h1, h2, hpc, sumDelta_cons]

/-- On an `eventRel`-sorted list, keeping the events at positions up to `p` is a filter by a
downward-closed predicate, hence equal to the corresponding `takeWhile`. -/
theorem filter_eq_takeWhile_of_sorted (p : Int) :
    ∀ s : List (Int × Int), List.Sorted eventRel s →
      (s.filter fun e => decide (e.1 ≤ p)) = s.takeWhile fun e => decide (e.1 ≤ p) := by
  intro s
  induction s with
  | nil => intro _; rfl
  | cons x rest ih =>
    intro hs
    obtain ⟨hhead, htail⟩ := List.sorted_cons.mp hs
    by_cases hx : x.1 ≤ p
    · simp [List.filter_cons, List.takeWhile_cons, hx, ih htail]
    · simp only [List.filter_cons, List.takeWhile_cons, hx, decide_eq_true_eq, if_neg,
        decide_eq_false hx]
      apply List.filter_eq_nil_iff.mpr
      intro y hy
      have hr := hhead y hy
      rcases hr with hr | ⟨hr, _⟩ <;> simp <;> omega

theorem takeWhile_append_of_all (q : Int × Int → Bool) :
    ∀ u v : List (Int × Int), (∀ x ∈ u, q x = true) →
      (u ++ v).takeWhile q = u ++ v.takeWhile q := by
  intro u v
  induction u with
  | nil => intro _; rfl
  | cons x u' ih =>
    intro h
    simp only [List.cons_append, List.takeWhile_cons, h x (List.mem_cons_self x u'), if_pos]
    rw [ih fun y hy => h y (List.mem_cons_of_mem x hy)]

/-- Any takeWhile of the event list is one of the sweep's running prefixes, so its delta sum
is at most the sweep result. -/
theorem takeWhile_sum_le_sweepLoop (s : List (Int × Int)) (q : Int × Int → Bool) :
    sumDelta (s.takeWhile q) ≤ sweepLoop s 0 0 := by
  rcases List.eq_nil_or_concat (s.takeWhile q) with h | ⟨L, e, h⟩
  · rw [h, sumDelta_nil]
    exact sweepLoop_ge s 0 0
  · have hsplit : s = L ++ e :: s.dropWhile q := by
      conv_lhs => rw [← List.takeWhile_append_dropWhile q s]
      rw [h, List.concat_eq_append, List.append_assoc, List.singleton_append]
    have hb := sweepLoop_ge_split L e (s.dropWhile q) 0 0
    rw [h, List.concat_eq_append]
    rw [hsplit]
    linarith

/-- The cover count at `p` is the delta sum of the sorted events taken while their position
is at most `p`. -/
theorem coverCount_eq_takeWhile_sum (l : List (Int × Int))
    (hval : ∀ iv ∈ l, -(2 ^ 63) ≤ iv.1 ∧ iv.1 ≤ iv.2 ∧ iv.2 < 2 ^ 63 - 1) (p : Int) :
    coverCount l p =
      sumDelta
        ((List.insertionSort eventRel (eventsOf l)).takeWhile fun e => decide (e.1 ≤ p)) := by
  rw [coverCount_eq_eventSum l hval p,
    ← filter_eq_takeWhile_of_sorted p _ (List.sorted_insertionSort eventRel _)]
  exact sumDelta_perm (((List.perm_insertionSort eventRel _).filter _).symm)

/-- Closing a prefix that ends in a `+1` event: taking every event at positions up to that
event's position can only increase the delta sum. -/
theorem closure_of_plus (s : List (Int × Int)) (hs : List.Sorted eventRel s)
    (hdelta : ∀ e ∈ s, e.2 = 1 ∨ e.2 = -1) (a : List (Int × Int)) (e : Int × Int)
    (b : List (Int × Int)) (hsplit : s = a ++ e :: b) (he : e.2 = 1) :
    sumDelta (a ++ [e]) ≤ sumDelta (s.takeWhile fun x => decide (x.1 ≤ e.1)) := by
  subst hsplit
  have hpair := List.pairwise_append.mp hs
  have hall : ∀ x ∈ a ++ [e], (fun x : Int × Int => decide (x.1 ≤ e.1)) x = true := by
    intro x hx
    rcases List.mem_append.mp hx with hx | hx
    · have hr := hpair.2.2 x hx e (List.mem_cons_self e b)
      rcases hr with hr | ⟨hr, _⟩ <;> simp <;> omega
    · rw [List.mem_singleton.mp hx]
      simp
  have hrw : a ++ e :: b = (a ++ [e]) ++ b := by simp
  rw [hrw, takeWhile_append_of_all _ _ _ hall]
  have hadd := sumDelta_append (a ++ [e]) (b.takeWhile fun x => decide (x.1 ≤ e.1))
  have hnn : 0 ≤ sumDelta (b.takeWhile fun x => decide (x.1 ≤ e.1)) := by
    apply List.sum_nonneg
    intro z hz
    rcases List.mem_map.mp hz with ⟨x, hx, hzx⟩
    have hxb : x ∈ b := (List.takeWhile_sublist _).subset hx
    have hxp : x.1 ≤ e.1 := by simpa using List.mem_takeWhile_imp hx
    have hrel : eventRel e x := (List.sorted_cons.mp hpair.2.1).1 x hxb
    have hdx := hdelta x (by rw [hrw]; exact List.mem_append_right _ hxb)
    rcases hrel with hr | ⟨_, hr⟩
    · omega
    · subst hzx
      omega
  linarith

/-- Every running prefix sum of value at least 1 is dominated by the delta sum of a closed
(take-up-to-a-position) prefix of the sorted event list. -/
theorem closure_exists (s : List (Int × Int)) (hs : List.Sorted eventRel s)
    (hdelta : ∀ e ∈ s, e.2 = 1 ∨ e.2 = -1) :
    ∀ (a : List (Int × Int)) (e : Int × Int) (b : List (Int × Int)),
      s = a ++ e :: b → 1 ≤ sumDelta (a ++ [e]) →
      ∃ p, sumDelta (a ++ [e]) ≤ sumDelta (s.takeWhile fun x => decide (x.1 ≤ p)) := by
  intro a
  induction a using List.reverseRecOn with
  | nil =>
    intro e b hsplit hpos
    have he : e.2 = 1 := by
      have hd := hdelta e (by rw [hsplit]; exact List.mem_cons_self e b)
      rw [List.nil_append, sumDelta_cons, sumDelta_nil] at hpos
      omega
    exact ⟨e.1, closure_of_plus s hs hdelta [] e b hsplit he⟩
  | append_singleton a' x ih =>
    intro e b hsplit hpos
    rcases hdelta e (by rw [hsplit]; simp) with he | he
    · exact ⟨e.1, closure_of_plus s hs hdelta _ e b hsplit he⟩
    · have hsplit' : s = a' ++ x :: (e :: b) := by
        rw [hsplit]
        simp
      have hsum : sumDelta ((a' ++ [x]) ++ [e]) = sumDelta (a' ++ [x]) + e.2 :=
        sumDelta_concat _ e
      have hpos' : 1 ≤ sumDelta (a' ++ [x]) := by omega
      rcases ih x (e :: b) hsplit' hpos' with ⟨p, hp⟩
      exact ⟨p, by omega⟩

/-- C1: for a non-empty state of valid int64 intervals (start ≤ end, end < 2^63 - 1, so the
end-event position `end + 1` does not overflow), Finalize returns the maximum over all
integer points `p` of the number of stored intervals covering `p`, with multiplicity. -/
theorem finalize_is_max_overlap (l : List (Int × Int)) (hne : l ≠ [])
    (hval : ∀ iv ∈ l, -(2 ^ 63) ≤ iv.1 ∧ iv.1 ≤ iv.2 ∧ iv.2 < 2 ^ 63 - 1) :
    (∃ p, Finalize l = coverCount l p) ∧ ∀ q, coverCount l q ≤ Finalize l := by
  rcases l with _ | ⟨iv, rest⟩
  · exact absurd rfl hne
  rcases rest with _ | ⟨iv2, rest2⟩
  · have hiv := hval iv (List.mem_cons_self iv [])
    have hFin : Finalize [iv] = 1 := by simp [Finalize]
    refine ⟨⟨iv.1, ?_⟩, fun q => ?_⟩
    · rw [hFin]
      simp [coverCount, hiv.2.1]
    · rw [hFin]
      have hle := coverCount_le_length [iv] q
      simpa using hle
  · have hFin : Finalize (iv :: iv2 :: rest2) =
        sweepLoop (List.insertionSort eventRel (eventsOf (iv :: iv2 :: rest2))) 0 0 := by
      simp [Finalize]
    have hsorted : List.Sorted eventRel
        (List.insertionSort eventRel (eventsOf (iv :: iv2 :: rest2))) :=
      List.sorted_insertionSort eventRel _
    have hdeltaS : ∀ e ∈ List.insertionSort eventRel (eventsOf (iv :: iv2 :: rest2)),
        e.2 = 1 ∨ e.2 = -1 := by
      intro e he
      exact eventsOf_delta _ e ((List.mem_insertionSort eventRel).mp he)
    have hup : ∀ q, coverCount (iv :: iv2 :: rest2) q ≤
        sweepLoop (List.insertionSort eventRel (eventsOf (iv :: iv2 :: rest2))) 0 0 := by
      intro q
      rw [coverCount_eq_takeWhile_sum _ hval q]
      exact takeWhile_sum_le_sweepLoop _ _
    have h1le : 1 ≤ sweepLoop (List.insertionSort eventRel (eventsOf (iv :: iv2 :: rest2))) 0 0 := by
      have hiv := hval iv (List.mem_cons_self iv (iv2 :: rest2))
      have hpos := coverCount_pos (iv :: iv2 :: rest2) iv
        (List.mem_cons_self iv (iv2 :: rest2)) hiv.2.1
      exact le_trans hpos (hup iv.1)
    refine ⟨?_, fun q => by rw [hFin]; exact hup q⟩
    rw [hFin]
    rcases sweepLoop_attained (List.insertionSort eventRel (eventsOf (iv :: iv2 :: rest2))) 0 0
      with h0 | ⟨a, e, b, hsplit, hrun⟩
    · rw [h0] at h1le
      exact absurd h1le (by norm_num)
    · have hge1 : 1 ≤ sumDelta (a ++ [e]) := by linarith
      rcases closure_exists _ hsorted hdeltaS a e b hsplit hge1 with ⟨p, hp⟩
      refine ⟨p, ?_⟩
      have hcc := coverCount_eq_takeWhile_sum (iv :: iv2 :: rest2) hval p
      have hupp := hup p
      rw [hcc]
      rw [hcc] at hupp
      linarith

/-- Witness for C1 at the state holding (1,3), (2,6), (4,5), (8,9). -/
theorem finalize_is_max_overlap_witness :
    (∃ p, Finalize [(1, 3), (2, 6), (4, 5), (8, 9)] =
        coverCount [(1, 3), (2, 6), (4, 5), (8, 9)] p) ∧
      ∀ q, coverCount [(1, 3), (2, 6), (4, 5), (8, 9)] q ≤
        Finalize [(1, 3), (2, 6), (4, 5), (8, 9)] :=
  finalize_is_max_overlap [(1, 3), (2, 6), (4, 5), (8, 9)] (by decide) (by decide)

theorem accumulateAll_eq_filter (pairs : List (Int × Int)) :
    accumulateAll pairs = pairs.filter fun iv => decide (iv.1 ≤ iv.2) := by
  have hgen : ∀ g s : List (Int × Int),
      g.foldl (fun st iv => Operation st iv.1 iv.2) s =
        s ++ g.filter fun iv => decide (iv.1 ≤ iv.2) := by
    intro g
    induction g with
    | nil => intro s; simp
    | cons iv g2 ih =>
      intro s
      simp only [List.foldl_cons, List.filter_cons]
      by_cases h : iv.1 ≤ iv.2
      · rw [ih]
        simp [Operation, h]
      · rw [ih]
        simp [Operation, h]
  simpa [accumulateAll] using hgen pairs []

/-- Merging a whole tree of accumulated groups yields, up to permutation of the stored
intervals, the valid members of all the raw inputs. -/
theorem mergeAll_perm_filter (t : MergeTree) :
    (mergeAll t).Perm ((groupsOf t).filter fun iv => decide (iv.1 ≤ iv.2)) := by
  induction t with
  | leaf g =>
    rw [mergeAll, accumulateAll_eq_filter]
    exact List.Perm.refl _
  | node t1 t2 ih1 ih2 =>
    simp only [mergeAll, groupsOf, Combine, List.filter_append]
    by_cases h : (mergeAll t1).isEmpty
    · rw [if_pos h]
      have h0 : mergeAll t1 = [] := List.isEmpty_iff.mp h
      rw [h0] at ih1
      have h1 : (groupsOf t1).filter (fun iv => decide (iv.1 ≤ iv.2)) = [] :=
        ih1.symm.eq_nil
      rw [h1, List.nil_append]
      exact ih2
    · rw [if_neg h]
      exact (ih2.append ih1).trans List.perm_append_comm

/-- Finalize only depends on the multiset of stored intervals: the branch conditions depend
only on the length, and sorting the events of a permuted state gives the identical sorted
event list. -/
theorem finalize_perm {l₁ l₂ : List (Int × Int)} (h : l₁.Perm l₂) :
    Finalize l₁ = Finalize l₂ := by
  have hlen := h.length_eq
  have hempty : l₁.isEmpty = l₂.isEmpty := by
    rcases l₁ with _ | ⟨x, l⟩ <;> rcases l₂ with _ | ⟨y, m⟩ <;> simp_all
  have hev : (eventsOf l₁).Perm (eventsOf l₂) := by
    simp only [eventsOf]
    exact h.flatMap_right _
  have hsort : List.insertionSort eventRel (eventsOf l₁) =
      List.insertionSort eventRel (eventsOf l₂) :=
    List.eq_of_perm_of_sorted
      ((List.perm_insertionSort _ _).trans (hev.trans (List.perm_insertionSort _ _).symm))
      (List.sorted_insertionSort _ _) (List.sorted_insertionSort _ _)
  simp only [Finalize, hempty, hlen, hsort]

/-- C2: accumulating any partition of the inputs into per-group states, merging the states
in any order and grouping, and finalizing gives the same result as accumulating all inputs
(in any order) into a single state and finalizing. -/
theorem merge_any_grouping (t : MergeTree) (l : List (Int × Int))
    (h : (groupsOf t).Perm l) :
    Finalize (mergeAll t) = Finalize (accumulateAll l) := by
  rw [accumulateAll_eq_filter]
  exact finalize_perm ((mergeAll_perm_filter t).trans (h.filter _))

/-- Witness for C2: two groups merged in a tree against direct accumulation in a shuffled
order. -/
theorem merge_any_grouping_witness :
    Finalize (mergeAll (.node (.leaf [(1, 3), (9, 4)]) (.leaf [(2, 5)]))) =
      Finalize (accumulateAll [(2, 5), (9, 4), (1, 3)]) :=
  merge_any_grouping (.node (.leaf [(1, 3), (9, 4)]) (.leaf [(2, 5)]))
    [(2, 5), (9, 4), (1, 3)] (by decide)

/-- C5: Finalize applied to a freshly created state with no intervals returns 0. -/
theorem finalize_empty_eq_zero : Finalize [] = 0 := rfl

/-- C3: the state holding exactly intervals (1,5) and (6,10) finalizes to 1, and the state
holding exactly intervals (1,5) and (5,10) finalizes to 2. -/
theorem finalize_touching_examples :
    Finalize [(1, 5), (6, 10)] = 1 ∧ Finalize [(1, 5), (5, 10)] = 2 := by
  constructor <;> decide

/-- C6: a state containing exactly one valid interval finalizes to 1. -/
theorem finalize_single_interval (left right : Int) (h : left ≤ right) :
    Finalize [(left, right)] = 1 := by
  simp [Finalize]

/-- Witness for C6 at the concrete interval (2, 5). -/
theorem finalize_single_interval_witness : Finalize [(2, 5)] = 1 :=
  finalize_single_interval 2 5 (by decide)

/-- C4: accumulating an invalid interval (left > right) leaves the state, and hence the
finalized result, unchanged. -/
theorem operation_invalid_noop (state : List (Int × Int)) (left right : Int)
    (h : right < left) :
    Operation state left right = state ∧
      Finalize (Operation state left right) = Finalize state := by
  have hs : Operation state left right = state := by
    simp [Operation, not_le.mpr h]
  exact ⟨hs, by rw [hs]⟩

/-- Witness for C4: accumulating (5, 2) into the state holding (0, 1). -/
theorem operation_invalid_noop_witness :
    Operation [(0, 1)] 5 2 = [(0, 1)] ∧
      Finalize (Operation [(0, 1)] 5 2) = Finalize [(0, 1)] :=
  operation_invalid_noop [(0, 1)] 5 2 (by decide)

/-- C7: `ConstantOperation` with count `n` produces the same state as `n` successive
`Operation` calls with the same pair, hence the same finalized result. -/
theorem constant_operation_eq_iterated (state : List (Int × Int)) (left right : Int)
    (n : Nat) :
    ConstantOperation state left right n =
        (fun st => Operation st left right)^[n] state ∧
      Finalize (ConstantOperation state left right n) =
        Finalize ((fun st => Operation st left right)^[n] state) := by
  have hs : ∀ (m : Nat) (s : List (Int × Int)),
      (fun st => Operation st left right)^[m] s =
        if left ≤ right then s ++ List.replicate m (left, right) else s := by
    intro m
    induction m with
    | zero => intro s; by_cases h : left ≤ right <;> simp [h]
    | succ k ih =>
      intro s
      rw [Function.iterate_succ_apply, ih]
      by_cases h : left ≤ right
      · simp [Operation, h, List.replicate_succ]
      · simp [Operation, h]
  have : ConstantOperation state left right n =
      (fun st => Operation st left right)^[n] state := by
    rw [hs, ConstantOperation]
  exact ⟨this, by rw [this]⟩

/-- C9: `Combine` reads its source state through a const reference and never writes it: the
source component of the post-state equals the pre-state, while the target component receives
the combined intervals. -/
theorem combine_preserves_source (source target : List (Int × Int)) :
    (CombineEffect source target).1 = source ∧
      (CombineEffect source target).2 = Combine source target := by
  by_cases h : source.isEmpty <;> simp [CombineEffect, Combine, h]

/-- C8: every interval stored in any state reachable by accumulate, constant-accumulate and
merge calls from a fresh state satisfies `start ≤ end`. -/
theorem reachable_intervals_valid (s : List (Int × Int)) (hs : Reachable s) :
    ∀ iv ∈ s, iv.1 ≤ iv.2 := by
  induction hs with
  | init => intro iv h; cases h
  | accum t left right _ ih =>
    intro iv h
    by_cases hv : left ≤ right
    · simp only [Operation, if_pos hv, List.mem_append, List.mem_singleton] at h
      rcases h with h | h
      · exact ih iv h
      · subst h; exact hv
    · simp only [Operation, if_neg hv] at h
      exact ih iv h
  | caccum t left right n _ ih =>
    intro iv h
    by_cases hv : left ≤ right
    · simp only [ConstantOperation, if_pos hv, List.mem_append] at h
      rcases h with h | h
      · exact ih iv h
      · rw [List.eq_of_mem_replicate h]; exact hv
    · simp only [ConstantOperation, if_neg hv] at h
      exact ih iv h
  | merge a b _ _ iha ihb =>
    intro iv h
    by_cases he : a.isEmpty
    · exact ihb iv (by simpa [Combine, he] using h)
    · simp only [Combine, if_neg he, List.mem_append] at h
      rcases h with h | h
      · exact ihb iv h
      · exact iha iv h

/-- Witness for C8 at the state reached by accumulating (1, 2) into a fresh state. -/
theorem reachable_intervals_valid_witness : ((1 : Int), (2 : Int)).1 ≤ ((1 : Int), (2 : Int)).2 :=
  reachable_intervals_valid (Operation [] 1 2) (.accum [] 1 2 .init) (1, 2) (by decide)

end MaxIntersections

namespace DaysInMonth

/-- C10: the TIME overload of days_in_month raises InvalidInputException on every input and
never returns a result. -/
theorem days_in_month_time_always_errors (args : List Int) :
    DaysInMonthTimeFunction args =
        Except.error
          "days_in_month cannot be used with TIME type - TIME does not contain date information" ∧
      ∀ res, DaysInMonthTimeFunction args ≠ Except.ok res := by
  exact ⟨rfl, fun res h => by cases h⟩

end DaysInMonth
